import Mathlib

/-!
A shallow embedding of `src/mm.c` (a segregated-fit explicit-free-list
memory allocator) and proofs about the claims of its specification.

Modelling conventions:
* Memory is a byte map `Nat → Nat`; header/footer words and free-list
  link fields are 4-byte little-endian words (`WORD = 4`, 32-bit
  platform, matching the block layout drawn at the top of mm.c).
* `mem_sbrk` is the external heap collaborator; an oracle in the state
  decides whether each successive extension request succeeds, and a
  failing call returns the C sentinel `(char * ) -1`, modelled as
  `2 ^ 64 - 1`.
* The doubly linked segregated free lists are carried twice, exactly as
  the C program does: the link words are written into memory by
  `list_add` / `list_remove` at the same offsets the C macros
  `PREV_FREE` / `NEXT_FREE` use, and the traversal order of each bucket
  (head to tail) is carried as a functional list `segs : Nat → List Nat`
  of payload addresses, standing for the chain `first[seg] … last[seg]`.
  `list_remove` reads the neighbour links from memory, as the C does.
* All machine arithmetic of the C source is mirrored on `Nat`:
  `UNPACK_SIZE` masks the low three bits (`usize`), `UNPACK_STATE`
  keeps the low bit (`ustate`), `PACK` is bitwise or, and stores
  truncate to the written width byte by byte.
-/

namespace MMC

/-- Byte-addressed memory. -/
abbrev Mem := Nat → Nat

/-- Store one byte (stores truncate to 8 bits, as on hardware). -/
def wbyte (m : Mem) (a v : Nat) : Mem := fun x => if x = a then v % 256 else m x

/-- Read a 4-byte little-endian word, as the C macro `VALUE` does on a
32-bit `unsigned int`. -/
def readW (m : Mem) (a : Nat) : Nat :=
  m a % 256 + 256 * (m (a + 1) % 256) + 65536 * (m (a + 2) % 256) +
    16777216 * (m (a + 3) % 256)

/-- Write a 4-byte little-endian word (truncating the value to 32 bits). -/
def writeW (m : Mem) (a v : Nat) : Mem :=
  wbyte (wbyte (wbyte (wbyte m a v) (a + 1) (v / 256)) (a + 2) (v / 65536))
    (a + 3) (v / 16777216)

/-- `UNPACK_SIZE`: the value with its low three bits masked off. -/
def usize (w : Nat) : Nat := w / 8 * 8

/-- `UNPACK_STATE`: the low bit (`FREE = 0`, `ALLOCATED = 1`). -/
def ustate (w : Nat) : Nat := w % 2

/-- `PACK(size, state)`: bitwise or of the size and the state bit. -/
def pack (size state : Nat) : Nat := size ||| state

/-- `ALIGN`: round up to the nearest multiple of 8. -/
def align8 (n : Nat) : Nat := (n + 7) / 8 * 8

/-- Size field of the header of the block whose payload address is `bp`
(`UNPACK_SIZE(HEADER(bp))`; the header word sits 12 bytes before the
payload). -/
def sizeAt (m : Mem) (bp : Nat) : Nat := usize (readW m (bp - 12))

/-- The C `(char * ) -1` failure sentinel of `mem_sbrk`, on a 64-bit
`size_t`/pointer heap collaborator. -/
def M1 : Nat := 2 ^ 64 - 1

/-- Allocator state: byte memory, the current break, the segregated free
lists (bucket index to head-to-tail list of payload addresses,
representing `first[seg] … last[seg]`), and the heap-extension oracle
with its call counter. -/
structure MMState where
  mem : Mem
  brk : Nat
  segs : Nat → List Nat
  oracle : Nat → Bool
  tick : Nat

/-- Point update of the bucket table. -/
def upd (f : Nat → List Nat) (i : Nat) (v : List Nat) : Nat → List Nat :=
  fun j => if j = i then v else f j

/-- `mem_sbrk(n)`: returns the old break and appends `n` bytes, or the
failure sentinel when the oracle denies the extension. -/
def mem_sbrk (s : MMState) (n : Nat) : Nat × MMState :=
  if s.oracle s.tick then
    (s.brk, { s with brk := s.brk + n, tick := s.tick + 1 })
  else
    (M1, { s with tick := s.tick + 1 })

/-- The loop body of `list_find`: `for (seg = 1, limit = 2; seg < MAX_SEG;
seg++, limit *= 2) if (size <= limit) return seg; return 0;`, with the
remaining iteration count made explicit. -/
def list_find_go (size : Nat) : Nat → Nat → Nat → Nat
  | _, _, 0 => 0
  | seg, limit, fuel + 1 =>
    if size ≤ limit then seg else list_find_go size (seg + 1) (limit * 2) fuel

/-- `list_find(size)`: the bucket a block of the given size belongs to
(`MAX_SEG = 13`, so the loop runs `seg = 1 … 12`). -/
def list_find (size : Nat) : Nat := list_find_go size 1 2 12

/-- `list_add(bp)`: append a free block at the tail of its bucket,
writing the `PREV_FREE`/`NEXT_FREE` link words into memory just as the
C does (`NEXT_FREE(bp)` at `bp - 4`, `PREV_FREE(bp)` at `bp - 8`). -/
def list_add (s : MMState) (bp : Nat) : MMState :=
  let seg := list_find (sizeAt s.mem bp)
  if s.segs seg = [] then
    let m1 := writeW s.mem (bp - 4) 0
    let m2 := writeW m1 (bp - 8) 0
    { s with mem := m2, segs := upd s.segs seg [bp] }
  else
    let lastbp := (s.segs seg).getLastD 0
    let m1 := writeW s.mem (lastbp - 4) bp
    let m2 := writeW m1 (bp - 8) lastbp
    let m3 := writeW m2 (bp - 4) 0
    { s with mem := m3, segs := upd s.segs seg (s.segs seg ++ [bp]) }

/-- `list_remove(bp)`: splice a free block out of its list.  The
neighbour addresses are read from the link words in memory (as the C
does), the neighbours' link words are rewritten, and the block is
removed from its bucket's traversal list. -/
def list_remove (s : MMState) (bp : Nat) : MMState :=
  let prev := readW s.mem (bp - 8)
  let next := readW s.mem (bp - 4)
  let seg := list_find (sizeAt s.mem bp)
  let m1 := if prev ≠ 0 then writeW s.mem (prev - 4) next else s.mem
  let m2 := if next ≠ 0 then writeW m1 (next - 8) prev else m1
  { s with mem := m2, segs := upd s.segs seg ((s.segs seg).erase bp) }

/-- The coalesce-left branch of `coalesce`: if the previous footer reads
FREE, fold the previous block in (merging rewrites the header first and
then the footer computed from the updated header, as `REPACK_SIZE`
does). -/
def coalesceL (s : MMState) (bp : Nat) : Nat × MMState :=
  if ustate (readW s.mem (bp - 16)) = 0 then
    let bp2 := bp - usize (readW s.mem (bp - 16))
    let s1 := list_remove s bp2
    let ns := sizeAt s1.mem bp2 +
      usize (readW s1.mem (bp2 - 12 + sizeAt s1.mem bp2))
    let m1 := writeW s1.mem (bp2 - 12) (pack ns (ustate (readW s1.mem (bp2 - 12))))
    let fa := bp2 - 16 + usize (readW m1 (bp2 - 12))
    let m2 := writeW m1 fa (pack ns (ustate (readW m1 fa)))
    (bp2, { s1 with mem := m2 })
  else (bp, s)

/-- The coalesce-right branch of `coalesce`: if the next header reads
FREE, fold the next block in. -/
def coalesceR (s : MMState) (bp : Nat) : MMState :=
  if ustate (readW s.mem (bp - 12 + sizeAt s.mem bp)) = 0 then
    let s1 := list_remove s (bp + sizeAt s.mem bp)
    let ns := sizeAt s1.mem bp +
      usize (readW s1.mem (bp - 12 + sizeAt s1.mem bp))
    let m1 := writeW s1.mem (bp - 12) (pack ns (ustate (readW s1.mem (bp - 12))))
    let fa := bp - 16 + usize (readW m1 (bp - 12))
    let m2 := writeW m1 fa (pack ns (ustate (readW m1 fa)))
    { s1 with mem := m2 }
  else s

/-- `coalesce(bp)`: merge with free neighbours (left branch then right
branch) and install the result in its free list; returns the possibly
moved payload address. -/
def coalesce (s : MMState) (bp : Nat) : Nat × MMState :=
  let p1 := coalesceL s bp
  let s2 := coalesceR p1.2 p1.1
  (p1.1, list_add s2 p1.1)

/-- `split(bp, size)`: carve the block at `size` when at least
`OVERHEAD = 16` bytes remain, rewriting the four boundary words in the
order of the C statements (each address recomputed from the memory
state current at that statement), then coalesce the remainder. -/
def split (s : MMState) (bp size : Nat) : MMState :=
  let oldsize := sizeAt s.mem bp
  if oldsize < size + 16 then s
  else
    let m1 := writeW s.mem (bp - 12) (pack size 1)
    let m2 := writeW m1 (bp - 16 + usize (readW m1 (bp - 12))) (pack size 1)
    let m3 := writeW m2 (bp - 12 + usize (readW m2 (bp - 12)))
      (pack (oldsize - size) 0)
    let nb := bp + usize (readW m3 (bp - 12))
    let m4 := writeW m3 (nb - 16 + usize (readW m3 (nb - 12)))
      (pack (oldsize - size) 0)
    let nb2 := bp + usize (readW m4 (bp - 12))
    (coalesce { s with mem := m4 } nb2).2

/-- First fit inside one bucket list (head to tail): the C inner loop
`for (bp = first[seg]; bp != NULL; bp = NEXT_FREE(bp))`. -/
def findInList (m : Mem) (size : Nat) (l : List Nat) : Option Nat :=
  l.find? (fun bp => decide (size ≤ sizeAt m bp))

/-- The outer loop of `find_block`: search buckets `seg`, `seg + 1`, …
while `seg < MAX_SEG` (the remaining bucket count is explicit). -/
def find_segs (s : MMState) (size : Nat) : Nat → Nat → Option Nat
  | _, 0 => none
  | seg, fuel + 1 =>
    match findInList s.mem size (s.segs seg) with
    | some bp => some bp
    | none => find_segs s size (seg + 1) fuel

/-- `find_block(size)`: progressive first fit over buckets `seg … 12`
(when `seg > 0`), falling back to the oversized bucket `0`. -/
def find_block (s : MMState) (size : Nat) : Option Nat :=
  let seg := list_find size
  let r := if 0 < seg then find_segs s size seg (13 - seg) else none
  match r with
  | some bp => some bp
  | none => findInList s.mem size (s.segs 0)

/-- `new_block(size)`: extend the heap, take over the old terminator as
the new block's header, write the new terminator, and coalesce. -/
def new_block (s : MMState) (size : Nat) : Option Nat × MMState :=
  let p := (mem_sbrk s size).1
  let s1 := (mem_sbrk s size).2
  if p = M1 then (none, s1)
  else
    let bp := p + 8
    let m1 := writeW s1.mem (bp - 12) (pack size 0)
    let m2 := writeW m1 (bp - 16 + usize (readW m1 (bp - 12))) (pack size 0)
    let m3 := writeW m2 (bp - 12 + usize (readW m2 (bp - 12))) (pack 0 1)
    let r := coalesce { s1 with mem := m3 } bp
    (some r.1, r.2)

/-- `mm_init()`: reserve 24 bytes, install the left sentinel (size 16,
ALLOCATED) and the zero-sized terminator, and clear every free list.
The C never checks the `mem_sbrk` result here, and neither does the
model: on failure the sentinel writes land at addresses computed from
`(char * ) -1`. -/
def mm_init (s : MMState) : Nat × MMState :=
  let p0 := (mem_sbrk s 24).1
  let s1 := (mem_sbrk s 24).2
  let p := p0 + 16
  let m1 := writeW s1.mem (p - 12) (pack 16 1)
  let m2 := writeW m1 (p - 16 + usize (readW m1 (p - 12))) (pack 16 1)
  let p2 := p + usize (readW m2 (p - 12))
  let m3 := writeW m2 (p2 - 12) (pack 0 1)
  (0, { s1 with mem := m3, segs := fun _ => [] })

/-- The tail of `mm_malloc` once a block has been found or created:
`list_remove`, repack header and footer as ALLOCATED, `split`. -/
def alloc_finish (s : MMState) (bp asize : Nat) : Option Nat × MMState :=
  let s1 := list_remove s bp
  let m1 := writeW s1.mem (bp - 12) (pack (usize (readW s1.mem (bp - 12))) 1)
  let fa := bp - 16 + usize (readW m1 (bp - 12))
  let m2 := writeW m1 fa (pack (usize (readW m1 fa)) 1)
  (some bp, split { s1 with mem := m2 } bp asize)

/-- `mm_malloc(size)`: null on zero, otherwise round the request to
`ALIGN(size + OVERHEAD)`, find or create a block, mark it allocated and
split off any slack. -/
def mm_malloc (s : MMState) (size : Nat) : Option Nat × MMState :=
  if size = 0 then (none, s)
  else
    let asize := align8 (size + 16)
    match find_block s asize with
    | some bp => alloc_finish s bp asize
    | none =>
      match new_block s asize with
      | (none, s1) => (none, s1)
      | (some bp, s1) => alloc_finish s1 bp asize

/-- `mm_free(bp)`: repack header and footer as FREE and coalesce. -/
def mm_free (s : MMState) (bp : Nat) : MMState :=
  let m1 := writeW s.mem (bp - 12) (pack (usize (readW s.mem (bp - 12))) 0)
  let fa := bp - 16 + usize (readW m1 (bp - 12))
  let m2 := writeW m1 fa (pack (usize (readW m1 fa)) 0)
  (coalesce { s with mem := m2 } bp).2

/-- An overlap-safe byte copy that reads every byte from the pre-state:
the semantics of both `memmove` (used by the grow-left path, where the
regions overlap and the destination is below the source) and `memcpy`
(used by the relocate path on disjoint regions). -/
def memcpy (m : Mem) (dst src n : Nat) : Mem :=
  fun x => if dst ≤ x ∧ x < dst + n then m (src + (x - dst)) else m x

/-- The grow-right branch of `mm_realloc`: absorb the next (free) block
and split at the rounded size. -/
def grow_right (s : MMState) (bp newsize cosize : Nat) : MMState :=
  let s1 := list_remove s (bp + sizeAt s.mem bp)
  let m1 := writeW s1.mem (bp - 12) (pack cosize 1)
  let m2 := writeW m1 (bp - 16 + usize (readW m1 (bp - 12))) (pack cosize 1)
  split { s1 with mem := m2 } bp newsize

/-- The grow-left branch of `mm_realloc`: absorb the previous (free)
block, move `oldsize - OVERHEAD` payload bytes backwards with the
overlap-safe copy, and split at the rounded size. -/
def grow_left (s : MMState) (bp oldsize newsize cosize : Nat) : Nat × MMState :=
  let bp2 := bp - usize (readW s.mem (bp - 16))
  let s1 := list_remove s bp2
  let m1 := writeW s1.mem (bp2 - 12) (pack cosize 1)
  let m2 := writeW m1 (bp2 - 16 + usize (readW m1 (bp2 - 12))) (pack cosize 1)
  let m3 := memcpy m2 bp2 bp (oldsize - 16)
  (bp2, split { s1 with mem := m3 } bp2 newsize)

/-- `mm_realloc(bp, size)`: the special cases and the five-path policy
of the C source, in source order — shrink-split (note: splitting at the
caller's unaligned `size`, as the C does), shrink-ignore, grow-right,
grow-left, relocate. -/
def mm_realloc (s : MMState) (bpo : Option Nat) (size : Nat) :
    Option Nat × MMState :=
  match bpo with
  | none => mm_malloc s size
  | some bp =>
    if size = 0 then (none, mm_free s bp)
    else
      let newsize := align8 (size + 16)
      let oldsize := sizeAt s.mem bp
      if newsize + 16 < oldsize then (some bp, split s bp size)
      else if newsize < oldsize then (some bp, s)
      else
        let nh := readW s.mem (bp - 12 + oldsize)
        let cosize := oldsize + usize nh
        if ustate nh = 0 ∧ newsize ≤ cosize then
          (some bp, grow_right s bp newsize cosize)
        else
          let pf := readW s.mem (bp - 16)
          let cosize2 := oldsize + usize pf
          if ustate pf = 0 ∧ newsize ≤ cosize2 then
            let r := grow_left s bp oldsize newsize cosize2
            (some r.1, r.2)
          else
            match mm_malloc s size with
            | (none, s1) => (none, s1)
            | (some bp2, s1) =>
              (some bp2,
                mm_free { s1 with mem := memcpy s1.mem bp2 bp (oldsize - 16) } bp)

/-- Walk the heap tiling from a payload address, reading each block's
`(payload address, size, state)` until the zero-sized terminator (or
the fuel runs out). -/
def heapWalk (m : Mem) : Nat → Nat → List (Nat × Nat × Nat)
  | _, 0 => []
  | bp, fuel + 1 =>
    let w := readW m (bp - 12)
    if usize w = 0 then []
    else (bp, usize w, ustate w) :: heapWalk m (bp + usize w) fuel

/-! ### Specification-side definitions for the `find_block` search claim

These follow the words of the specification, to be compared with the
translation of the C loops above. -/

/-- The bucket of the specification: the first (hence smallest) `i` in
`1 … MAX_SEG - 1 = 12` with `size ≤ 2 ^ i`, or `0` when the size
exceeds `2 ^ 12`. -/
def bucketSpec (size : Nat) : Nat :=
  match (List.range' 1 12).find? (fun i => decide (size ≤ 2 ^ i)) with
  | some i => i
  | none => 0

/-- The search order of the specification: bucket `seg` through bucket
`MAX_SEG - 1`, head to tail (only when `seg > 0`), then the oversized
bucket `0`. -/
def searchOrder (s : MMState) (size : Nat) : List Nat :=
  (if 0 < bucketSpec size
   then ((List.range' (bucketSpec size) (13 - bucketSpec size)).map s.segs).flatten
   else []) ++ s.segs 0

/-- The specification's description of `find_block`: the first block in
the search order whose size is sufficient. -/
def find_spec (s : MMState) (size : Nat) : Option Nat :=
  (searchOrder s size).find? (fun bp => decide (size ≤ sizeAt s.mem bp))

/-! ### Client traces of the public API

A command either allocates, frees or reallocates one of the payload
pointers the allocator has handed out so far (pointers are named by
their index in the history of returned payloads; an out-of-range index
is a no-op), or calls `reallocate(null, n)`. -/

/-- One public API call of a client trace. -/
inductive Cmd where
  | alloc : Nat → Cmd
  | freeAt : Nat → Cmd
  | reallocAt : Nat → Nat → Cmd
  | reallocNull : Nat → Cmd

/-- A running trace: the machine and the history of returned payload
pointers. -/
structure Trace where
  st : MMState
  ptrs : List Nat

/-- Execute one client command. -/
def step (t : Trace) : Cmd → Trace
  | Cmd.alloc n =>
    match mm_malloc t.st n with
    | (some p, s1) => { st := s1, ptrs := t.ptrs ++ [p] }
    | (none, s1) => { st := s1, ptrs := t.ptrs }
  | Cmd.freeAt i =>
    match t.ptrs[i]? with
    | some p => { st := mm_free t.st p, ptrs := t.ptrs }
    | none => t
  | Cmd.reallocAt i n =>
    match t.ptrs[i]? with
    | some p =>
      match mm_realloc t.st (some p) n with
      | (some q, s1) => { st := s1, ptrs := t.ptrs ++ [q] }
      | (none, s1) => { st := s1, ptrs := t.ptrs }
    | none => t
  | Cmd.reallocNull n =>
    match mm_realloc t.st none n with
    | (some q, s1) => { st := s1, ptrs := t.ptrs ++ [q] }
    | (none, s1) => { st := s1, ptrs := t.ptrs }

/-- Run a client trace from `init` on the given machine. -/
def run (s : MMState) (cs : List Cmd) : Trace :=
  cs.foldl step { st := (mm_init s).2, ptrs := [] }

/-- The alignment invariant of the machine: every payload address held
in a segregated list and the break are multiples of 8. -/
def Aligned (s : MMState) : Prop :=
  (∀ i bp, bp ∈ s.segs i → bp % 8 = 0) ∧ s.brk % 8 = 0

/-- Trace invariant: the machine is aligned and so is every payload
pointer ever returned to the client. -/
def TAligned (t : Trace) : Prop :=
  Aligned t.st ∧ ∀ p ∈ t.ptrs, p % 8 = 0

/-- A sample client trace exercising allocate, free, grow-right
reallocate and reallocate(null, n). -/
def csW : List Cmd := [Cmd.alloc 8, Cmd.alloc 8, Cmd.freeAt 1,
  Cmd.reallocAt 0 20, Cmd.reallocNull 4]


/-! ### Concrete machine states used as witnesses and counterexamples

All of them are produced by actually running the public API of the
model from a pristine machine whose heap base is 0 (8-aligned). -/

/-- A heap-extension oracle that always grants the request. -/
def oT : Nat → Bool := fun _ => true

/-- A heap-extension oracle that grants only the first three requests. -/
def oG : Nat → Bool := fun t => t < 3

/-- The pristine machine: zeroed memory, break at the 8-aligned base 0,
empty free lists. -/
def s0 : MMState :=
  { mem := fun _ => 0, brk := 0, segs := fun _ => [], oracle := oT, tick := 0 }

/-- A pristine machine whose heap can never be extended. -/
def s0f : MMState :=
  { mem := fun _ => 0, brk := 0, segs := fun _ => [], oracle := fun _ => false,
    tick := 0 }

/-- A pristine machine whose heap can be extended three times. -/
def s0g : MMState :=
  { mem := fun _ => 0, brk := 0, segs := fun _ => [], oracle := oG, tick := 0 }

/-- After `init()`: sentinel block and terminator installed. -/
def sInit : MMState := (mm_init s0).2

/-- After `init(); p = allocate(100)`: one allocated block of size 120
with payload address 32. -/
def sA : MMState := (mm_malloc sInit 100).2

/-- `sA` after the client stores the byte 171 at payload offset 0 of
`p = 32` (a legal client write into its own payload). -/
def sA4 : MMState := { sA with mem := wbyte sA.mem 32 171 }

/-- After `init(); a = allocate(8); b = allocate(8)`: two allocated
blocks of size 24 at payloads 32 and 56; both neighbours of `a` are
ALLOCATED. -/
def sB : MMState := (mm_malloc (mm_malloc sInit 8).2 8).2

/-- `sB` after `free(b)`: the right neighbour of `a = 32` is now FREE. -/
def sC : MMState := mm_free sB 56

/-- `init(); a = allocate(8); b = allocate(8)` under the oracle that
grants only three extensions: the next extension request will fail. -/
def sE : MMState := (mm_malloc (mm_malloc (mm_init s0g).2 8).2 8).2

/-! ### Helper lemmas -/

/-- When the heap-extension oracle denies the request, `new_block`
returns null and the machine is exactly as before, except for the
extension-attempt counter. -/
theorem new_block_fail (s : MMState) (n : Nat)
    (ho : s.oracle s.tick = false) :
    new_block s n = (none, { s with tick := s.tick + 1 }) := by
  simp only [new_block, mem_sbrk, ho]
  simp

/-- When no fitting free block exists and the heap-extension oracle
denies the request, `mm_malloc` returns null and the machine is exactly
as before, except for the extension-attempt counter. -/
theorem malloc_extend_fail (s : MMState) (n : Nat) (hn : n ≠ 0)
    (hf : find_block s (align8 (n + 16)) = none)
    (ho : s.oracle s.tick = false) :
    mm_malloc s n = (none, { s with tick := s.tick + 1 }) := by
  simp only [mm_malloc]
  rw [if_neg hn, hf, new_block_fail s (align8 (n + 16)) ho]

/-- The bucket-walk loop agrees with first-match search over the index
range it still has to visit (loop counter `limit = 2 ^ seg`). -/
theorem list_find_go_spec (size : Nat) :
    ∀ (fuel seg : Nat),
      list_find_go size seg (2 ^ seg) fuel =
        (match (List.range' seg fuel).find? (fun i => decide (size ≤ 2 ^ i)) with
         | some i => i
         | none => 0) := by
  intro fuel
  induction fuel with
  | zero => intro seg; simp [list_find_go]
  | succ f ih =>
    intro seg
    rw [List.range'_succ]
    by_cases h : size ≤ 2 ^ seg
    · rw [List.find?_cons_of_pos _ (by simpa using h)]
      simp [list_find_go, h]
    · rw [List.find?_cons_of_neg _ (by simpa using h)]
      have : (2 : Nat) ^ seg * 2 = 2 ^ (seg + 1) := by ring
      simp only [list_find_go, if_neg h, this]
      simpa using ih (seg + 1)

/-- `list_find` equals the specification's bucket assignment. -/
theorem list_find_eq_bucketSpec (size : Nat) :
    list_find size = bucketSpec size := by
  have h := list_find_go_spec size 12 1
  simpa [list_find, bucketSpec] using h

/-- The outer loop of `find_block` is first-match search over the
concatenation of the remaining buckets. -/
theorem find_segs_spec (s : MMState) (size : Nat) :
    ∀ (fuel seg : Nat),
      find_segs s size seg fuel =
        findInList s.mem size (((List.range' seg fuel).map s.segs).flatten) := by
  intro fuel
  induction fuel with
  | zero => intro seg; simp [find_segs, findInList]
  | succ f ih =>
    intro seg
    rw [List.range'_succ]
    simp only [List.map_cons, List.flatten_cons]
    simp only [findInList, List.find?_append]
    rw [find_segs]
    cases h : findInList s.mem size (s.segs seg) with
    | some bp => simp only [findInList] at h; rw [h]; rfl
    | none => simp only [findInList] at h; rw [h]; simp [ih (seg + 1), findInList]

/-- The value `list_find_go` returns is between the current counter and
any index in range whose limit already accommodates the size. -/
theorem list_find_go_le (size : Nat) :
    ∀ (fuel seg j : Nat), seg ≤ j → j < seg + fuel → size ≤ 2 ^ j →
      seg ≤ list_find_go size seg (2 ^ seg) fuel ∧
      list_find_go size seg (2 ^ seg) fuel ≤ j ∧
      size ≤ 2 ^ list_find_go size seg (2 ^ seg) fuel := by
  intro fuel
  induction fuel with
  | zero => intro seg j h1 h2 _; omega
  | succ f ih =>
    intro seg j h1 h2 hj
    by_cases h : size ≤ 2 ^ seg
    · simp only [list_find_go, if_pos h]
      exact ⟨le_rfl, h1, h⟩
    · have hsj : seg ≠ j := by
        rintro rfl; exact h hj
      have : (2 : Nat) ^ seg * 2 = 2 ^ (seg + 1) := by ring
      simp only [list_find_go, if_neg h, this]
      have := ih (seg + 1) j (by omega) (by omega) hj
      omega

/-- When every remaining limit is too small, the loop falls through to
the oversized bucket `0`. -/
theorem list_find_go_zero (size : Nat) :
    ∀ (fuel seg : Nat), (∀ j, seg ≤ j → j < seg + fuel → 2 ^ j < size) →
      list_find_go size seg (2 ^ seg) fuel = 0 := by
  intro fuel
  induction fuel with
  | zero => intro seg _; rfl
  | succ f ih =>
    intro seg hall
    have h : ¬ size ≤ 2 ^ seg := by
      have := hall seg (le_refl _) (by omega); omega
    have h2 : (2 : Nat) ^ seg * 2 = 2 ^ (seg + 1) := by ring
    simp only [list_find_go, if_neg h, h2]
    exact ih (seg + 1) (fun j hj1 hj2 => hall j (by omega) (by omega))

theorem usize_mod8 (w : Nat) : usize w % 8 = 0 := by unfold usize; omega

theorem align8_mod8 (n : Nat) : align8 n % 8 = 0 := by unfold align8; omega

theorem mem_upd {f : Nat → List Nat} {i : Nat} {v : List Nat} {j bp : Nat}
    (h : bp ∈ upd f i v j) : bp ∈ v ∨ bp ∈ f j := by
  unfold upd at h
  by_cases hj : j = i
  · rw [if_pos hj] at h; exact Or.inl h
  · rw [if_neg hj] at h; exact Or.inr h

theorem aligned_list_add (s : MMState) (bp : Nat) (h : Aligned s)
    (hbp : bp % 8 = 0) : Aligned (list_add s bp) := by
  obtain ⟨hsegs, hbrk⟩ := h
  simp only [list_add]
  split
  · refine ⟨?_, hbrk⟩
    intro i x hx
    rcases mem_upd hx with hx | hx
    · rcases List.mem_singleton.1 hx with rfl; exact hbp
    · exact hsegs i x hx
  · refine ⟨?_, hbrk⟩
    intro i x hx
    rcases mem_upd hx with hx | hx
    · rcases List.mem_append.1 hx with hx | hx
      · exact hsegs _ x hx
      · rcases List.mem_singleton.1 hx with rfl; exact hbp
    · exact hsegs i x hx

theorem aligned_list_remove (s : MMState) (bp : Nat) (h : Aligned s) :
    Aligned (list_remove s bp) := by
  obtain ⟨hsegs, hbrk⟩ := h
  simp only [list_remove]
  refine ⟨?_, hbrk⟩
  intro i x hx
  rcases mem_upd hx with hx | hx
  · exact hsegs _ x (List.mem_of_mem_erase hx)
  · exact hsegs i x hx

theorem aligned_coalesceL (s : MMState) (bp : Nat) (h : Aligned s)
    (hbp : bp % 8 = 0) :
    Aligned (coalesceL s bp).2 ∧ (coalesceL s bp).1 % 8 = 0 := by
  simp only [coalesceL]
  split
  · refine ⟨aligned_list_remove _ _ h, ?_⟩
    have := usize_mod8 (readW s.mem (bp - 16))
    omega
  · exact ⟨h, hbp⟩

theorem aligned_coalesceR (s : MMState) (bp : Nat) (h : Aligned s) :
    Aligned (coalesceR s bp) := by
  simp only [coalesceR]
  split
  · exact aligned_list_remove _ _ h
  · exact h

theorem aligned_coalesce (s : MMState) (bp : Nat) (h : Aligned s)
    (hbp : bp % 8 = 0) :
    Aligned (coalesce s bp).2 ∧ (coalesce s bp).1 % 8 = 0 := by
  simp only [coalesce]
  obtain ⟨h1, h2⟩ := aligned_coalesceL s bp h hbp
  exact ⟨aligned_list_add _ _ (aligned_coalesceR _ _ h1) h2, h2⟩

theorem aligned_split (s : MMState) (bp n : Nat) (h : Aligned s)
    (hbp : bp % 8 = 0) : Aligned (split s bp n) := by
  simp only [split]
  split
  · exact h
  · have key : ∀ (m : Mem),
        Aligned (coalesce { s with mem := m } (bp + usize (readW m (bp - 12)))).2 := by
      intro m
      have h2 : Aligned { s with mem := m } := h
      refine (aligned_coalesce _ _ h2 ?_).1
      have := usize_mod8 (readW m (bp - 12))
      omega
    exact key _

theorem find_block_mem (s : MMState) (size bp : Nat)
    (h : find_block s size = some bp) : ∃ i, bp ∈ s.segs i := by
  simp only [find_block] at h
  cases hr : (if 0 < list_find size then
      find_segs s size (list_find size) (13 - list_find size) else none) with
  | none =>
    rw [hr] at h
    simp only [findInList] at h
    exact ⟨0, List.mem_of_find?_eq_some h⟩
  | some bp2 =>
    rw [hr] at h
    simp only [Option.some.injEq] at h
    subst h
    by_cases h0 : 0 < list_find size
    · rw [if_pos h0, find_segs_spec] at hr
      simp only [findInList] at hr
      have hm := List.mem_of_find?_eq_some hr
      rw [List.mem_flatten] at hm
      obtain ⟨l, hl, hbl⟩ := hm
      rw [List.mem_map] at hl
      obtain ⟨i, _, rfl⟩ := hl
      exact ⟨i, hbl⟩
    · rw [if_neg h0] at hr; cases hr

theorem aligned_new_block (s : MMState) (n : Nat) (h : Aligned s)
    (hn : n % 8 = 0) :
    Aligned (new_block s n).2 ∧
      ∀ bp, (new_block s n).1 = some bp → bp % 8 = 0 := by
  simp only [new_block, mem_sbrk]
  cases ho : s.oracle s.tick with
  | false =>
    simp only [ho, Bool.false_eq_true, if_false]
    exact ⟨⟨h.1, h.2⟩, fun bp hb => by cases hb⟩
  | true =>
    simp only [ho, if_true]
    have hbrk : s.brk % 8 = 0 := h.2
    have hM : ¬ (s.brk = M1) := by
      intro he
      rw [he] at hbrk
      have : M1 % 8 = 7 := by decide
      omega
    rw [if_neg hM]
    have h1 : Aligned { s with brk := s.brk + n, tick := s.tick + 1 } :=
      ⟨h.1, by show (s.brk + n) % 8 = 0; omega⟩
    have hb8 : (s.brk + 8) % 8 = 0 := by omega
    have key : ∀ m : Mem,
        Aligned (coalesce { s with mem := m, brk := s.brk + n, tick := s.tick + 1 } (s.brk + 8)).2 ∧
        (coalesce { s with mem := m, brk := s.brk + n, tick := s.tick + 1 } (s.brk + 8)).1 % 8 = 0 := by
      intro m
      have h2 : Aligned { s with mem := m, brk := s.brk + n, tick := s.tick + 1 } := h1
      exact aligned_coalesce _ _ h2 hb8
    refine ⟨(key _).1, fun bp hb => ?_⟩
    simp only [Option.some.injEq] at hb
    rw [← hb]
    exact (key _).2

theorem aligned_alloc_finish (s : MMState) (bp asize : Nat) (h : Aligned s)
    (hbp : bp % 8 = 0) :
    Aligned (alloc_finish s bp asize).2 ∧
      ∀ q, (alloc_finish s bp asize).1 = some q → q % 8 = 0 := by
  simp only [alloc_finish]
  have key : ∀ m : Mem,
      Aligned (split { list_remove s bp with mem := m } bp asize) := by
    intro m
    have h2 : Aligned { list_remove s bp with mem := m } :=
      aligned_list_remove s bp h
    exact aligned_split _ _ _ h2 hbp
  refine ⟨key _, fun q hq => ?_⟩
  simp only [Option.some.injEq] at hq
  omega

theorem aligned_malloc (s : MMState) (n : Nat) (h : Aligned s) :
    Aligned (mm_malloc s n).2 ∧
      ∀ bp, (mm_malloc s n).1 = some bp → bp % 8 = 0 := by
  simp only [mm_malloc]
  by_cases hz : n = 0
  · rw [if_pos hz]
    exact ⟨h, fun bp hb => by cases hb⟩
  · rw [if_neg hz]
    cases hfb : find_block s (align8 (n + 16)) with
    | some bp =>
      have hbp : bp % 8 = 0 := by
        obtain ⟨i, hi⟩ := find_block_mem s (align8 (n + 16)) bp hfb
        exact h.1 i bp hi
      exact aligned_alloc_finish s bp (align8 (n + 16)) h hbp
    | none =>
      have hnb := aligned_new_block s (align8 (n + 16)) h (align8_mod8 (n + 16))
      have he : new_block s (align8 (n + 16)) =
          ((new_block s (align8 (n + 16))).1, (new_block s (align8 (n + 16))).2) := rfl
      rw [he]
      cases hq : (new_block s (align8 (n + 16))).1 with
      | none => exact ⟨hnb.1, fun bp hb => by cases hb⟩
      | some bp =>
        exact aligned_alloc_finish _ bp (align8 (n + 16)) hnb.1 (hnb.2 bp hq)

theorem aligned_free (s : MMState) (bp : Nat) (h : Aligned s)
    (hbp : bp % 8 = 0) : Aligned (mm_free s bp) := by
  simp only [mm_free]
  have key : ∀ m : Mem, Aligned (coalesce { s with mem := m } bp).2 := by
    intro m
    have h2 : Aligned { s with mem := m } := h
    exact (aligned_coalesce _ _ h2 hbp).1
  exact key _

theorem aligned_grow_right (s : MMState) (bp newsize cosize : Nat)
    (h : Aligned s) (hbp : bp % 8 = 0) :
    Aligned (grow_right s bp newsize cosize) := by
  simp only [grow_right]
  have key : ∀ m : Mem,
      Aligned (split { list_remove s (bp + sizeAt s.mem bp) with mem := m } bp newsize) := by
    intro m
    have h2 : Aligned { list_remove s (bp + sizeAt s.mem bp) with mem := m } :=
      aligned_list_remove s (bp + sizeAt s.mem bp) h
    exact aligned_split _ _ _ h2 hbp
  exact key _

theorem aligned_grow_left (s : MMState) (bp oldsize newsize cosize : Nat)
    (h : Aligned s) (hbp : bp % 8 = 0) :
    Aligned (grow_left s bp oldsize newsize cosize).2 ∧
      (grow_left s bp oldsize newsize cosize).1 % 8 = 0 := by
  simp only [grow_left]
  have hb2 : (bp - usize (readW s.mem (bp - 16))) % 8 = 0 := by
    have := usize_mod8 (readW s.mem (bp - 16))
    omega
  have key : ∀ m : Mem,
      Aligned (split { list_remove s (bp - usize (readW s.mem (bp - 16))) with mem := m }
        (bp - usize (readW s.mem (bp - 16))) newsize) := by
    intro m
    have h2 : Aligned { list_remove s (bp - usize (readW s.mem (bp - 16))) with mem := m } :=
      aligned_list_remove s (bp - usize (readW s.mem (bp - 16))) h
    exact aligned_split _ _ _ h2 hb2
  exact ⟨key _, hb2⟩

set_option maxHeartbeats 1000000 in
theorem aligned_realloc (s : MMState) (bp size : Nat) (h : Aligned s)
    (hbp : bp % 8 = 0) :
    Aligned (mm_realloc s (some bp) size).2 ∧
      ∀ q, (mm_realloc s (some bp) size).1 = some q → q % 8 = 0 := by
  simp only [mm_realloc]
  by_cases hz : size = 0
  · rw [if_pos hz]
    exact ⟨aligned_free s bp h hbp, fun q hq => by cases hq⟩
  · rw [if_neg hz]
    split
    · refine ⟨aligned_split s bp size h hbp, fun q hq => ?_⟩
      simp only [Option.some.injEq] at hq
      omega
    · split
      · exact ⟨h, fun q hq => by simp only [Option.some.injEq] at hq; omega⟩
      · split
        · refine ⟨aligned_grow_right s bp _ _ h hbp, fun q hq => ?_⟩
          simp only [Option.some.injEq] at hq
          omega
        · split
          · have hgl := aligned_grow_left s bp (sizeAt s.mem bp)
              (align8 (size + 16))
              (sizeAt s.mem bp + usize (readW s.mem (bp - 16))) h hbp
            refine ⟨hgl.1, fun q hq => ?_⟩
            simp only [Option.some.injEq] at hq
            have := hgl.2
            omega
          · have hmm := aligned_malloc s size h
            have he : mm_malloc s size =
                ((mm_malloc s size).1, (mm_malloc s size).2) := rfl
            rw [he]
            cases hq : (mm_malloc s size).1 with
            | none => exact ⟨hmm.1, fun q hq2 => by cases hq2⟩
            | some bp2 =>
              have hbp2 : bp2 % 8 = 0 := hmm.2 bp2 hq
              have key : ∀ m : Mem,
                  Aligned (mm_free { (mm_malloc s size).2 with mem := m } bp) := by
                intro m
                have h2 : Aligned { (mm_malloc s size).2 with mem := m } := hmm.1
                exact aligned_free _ bp h2 hbp
              refine ⟨key _, fun q hq2 => ?_⟩
              simp only [Option.some.injEq] at hq2
              omega

theorem aligned_init (s : MMState) (h : s.brk % 8 = 0) :
    Aligned (mm_init s).2 := by
  simp only [mm_init, mem_sbrk]
  cases ho : s.oracle s.tick with
  | false =>
    simp only [ho, Bool.false_eq_true, if_false]
    exact ⟨(fun i bp hb => nomatch hb), h⟩
  | true =>
    simp only [ho, if_true]
    exact ⟨(fun i bp hb => nomatch hb), by show (s.brk + 24) % 8 = 0; omega⟩

set_option maxHeartbeats 1000000 in
theorem taligned_step (t : Trace) (c : Cmd) (h : TAligned t) :
    TAligned (step t c) := by
  obtain ⟨hs, hp⟩ := h
  cases c with
  | alloc n =>
    simp only [step]
    have hmm := aligned_malloc t.st n hs
    obtain ⟨q, s1, he⟩ : ∃ q s1, mm_malloc t.st n = (q, s1) :=
      ⟨(mm_malloc t.st n).1, (mm_malloc t.st n).2, rfl⟩
    rw [he] at hmm ⊢
    dsimp only at hmm
    cases q with
    | none => exact ⟨hmm.1, hp⟩
    | some p =>
      refine ⟨hmm.1, fun x hx => ?_⟩
      rcases List.mem_append.1 hx with hx | hx
      · exact hp x hx
      · rcases List.mem_singleton.1 hx with rfl
        exact hmm.2 x rfl
  | freeAt i =>
    simp only [step]
    cases hg : t.ptrs[i]? with
    | none => exact ⟨hs, hp⟩
    | some p =>
      exact ⟨aligned_free t.st p hs (hp p (List.getElem?_mem hg)), hp⟩
  | reallocAt i n =>
    simp only [step]
    cases hg : t.ptrs[i]? with
    | none => exact ⟨hs, hp⟩
    | some p =>
      dsimp only
      have hre := aligned_realloc t.st p n hs (hp p (List.getElem?_mem hg))
      obtain ⟨q, s1, he⟩ : ∃ q s1, mm_realloc t.st (some p) n = (q, s1) :=
        ⟨(mm_realloc t.st (some p) n).1, (mm_realloc t.st (some p) n).2, rfl⟩
      rw [he] at hre ⊢
      dsimp only at hre
      cases q with
      | none => exact ⟨hre.1, hp⟩
      | some pq =>
        refine ⟨hre.1, fun x hx => ?_⟩
        rcases List.mem_append.1 hx with hx | hx
        · exact hp x hx
        · rcases List.mem_singleton.1 hx with rfl
          exact hre.2 x rfl
  | reallocNull n =>
    simp only [step, mm_realloc]
    have hmm := aligned_malloc t.st n hs
    obtain ⟨q, s1, he⟩ : ∃ q s1, mm_malloc t.st n = (q, s1) :=
      ⟨(mm_malloc t.st n).1, (mm_malloc t.st n).2, rfl⟩
    rw [he] at hmm ⊢
    dsimp only at hmm
    cases q with
    | none => exact ⟨hmm.1, hp⟩
    | some p =>
      refine ⟨hmm.1, fun x hx => ?_⟩
      rcases List.mem_append.1 hx with hx | hx
      · exact hp x hx
      · rcases List.mem_singleton.1 hx with rfl
        exact hmm.2 x rfl

/-! ### Claim theorems -/

/-- C6: boundary behaviours of the public API: `allocate(0)` returns
null without growing the heap or changing any state, `reallocate(null,
n)` is definitionally `allocate(n)`, and `reallocate(p, 0)` is
definitionally `free(p)` followed by a null return. -/
theorem c6_boundary_behaviors (s : MMState) (n : Nat) (bp : Nat) :
    mm_malloc s 0 = (none, s) ∧
    mm_realloc s none n = mm_malloc s n ∧
    mm_realloc s (some bp) 0 = (none, mm_free s bp) :=
  ⟨rfl, rfl, rfl⟩

/-- C10: `mm_init` always returns 0 and clears all `MAX_SEG = 13`
free-list head/tail pointers (every bucket becomes the empty chain),
whether or not the initial heap extension succeeded — the `mem_sbrk`
result is never checked, so initialization failure is never reported. -/
theorem c10_init_unchecked_result (s : MMState) :
    (mm_init s).1 = 0 ∧ ∀ i, ((mm_init s).2).segs i = [] :=
  ⟨rfl, fun _ => rfl⟩

/-- C2 is violated by the code (the slip that §9 of the specification
identifies): in the heap `sA` every block size is a multiple of 8 and
at least 16, but after `reallocate(p, 8)` takes the shrink-split path
and calls `split` with the unaligned user size 8, the heap tiling
contains a block of size 8 < 16. -/
theorem c2_shrink_split_size_invariant_broken :
    (∀ b ∈ heapWalk sA.mem 32 10, 16 ≤ b.2.1 ∧ b.2.1 % 8 = 0) ∧
    heapWalk ((mm_realloc sA (some 32) 8).2).mem 32 10 =
      [(32, 8, 1), (40, 112, 0)] ∧
    ¬ (16 ≤ 8) := by decide

/-- C3 is violated by the code: in `sA` the block at payload 32 has
size 120, and `reallocate(p, 16)` takes the shrink-split path (aligned
size `newsize = align_up(16 + 16, 8) = 32`, and `32 + 16 < 120`), but
the code splits at the unaligned user size 16, so the retained block's
size is 16, not `newsize = 32` as the specification mandates. -/
theorem c3_shrink_split_uses_unaligned_size :
    align8 (16 + 16) = 32 ∧
    align8 (16 + 16) + 16 < sizeAt sA.mem 32 ∧
    (mm_realloc sA (some 32) 16).1 = some 32 ∧
    sizeAt ((mm_realloc sA (some 32) 16).2).mem 32 = 16 := by decide

/-- C4 is violated by the code on the shrink path: in `sA4` the client
byte 171 sits at payload offset 0 of `p = 32` and the old payload
capacity is 104, so `reallocate(p, 16)` must preserve the first
`min(104, 16) = 16` payload bytes; but the shrink-split path rewrites
the retained block's footer at that very address, so payload byte 0
reads back 17 instead of 171. -/
theorem c4_shrink_destroys_payload :
    sA4.mem 32 = 171 ∧
    (mm_realloc sA4 (some 32) 16).1 = some 32 ∧
    ((mm_realloc sA4 (some 32) 16).2).mem 32 = 17 := by decide

/-- C1 as stated is false: in `sB` (a heap satisfying the §3
invariants, as the walk check shows) the block at payload 32 was
produced by `allocate(8)` and has size `align_up(8 + 16, 8) = 24`, yet
`reallocate(32, 8)` returns payload 80 — both neighbours of the block
are allocated, so the code takes the relocate path and moves the
block. -/
theorem c1_counterexample_relocates :
    align8 (8 + 16) = sizeAt sB.mem 32 ∧
    (∀ b ∈ heapWalk sB.mem 32 10, 16 ≤ b.2.1 ∧ b.2.1 % 8 = 0) ∧
    (mm_realloc sB (some 32) 8).1 = some 80 ∧
    some 80 ≠ some (32 : Nat) := by decide

/-- C1 amended: `reallocate(p, s)` with the user size whose rounded
block size equals the block's current size returns `p` unchanged
whenever the block immediately to the right of `p` is FREE (the
grow-right fast path); when both neighbours are allocated the code
instead relocates the block, and when only the left neighbour is free
it moves the payload leftwards (see the counterexample). -/
theorem c1_realloc_same_size_next_free (s : MMState) (bp size : Nat)
    (hs : size ≠ 0)
    (heq : align8 (size + 16) = sizeAt s.mem bp)
    (hnext : ustate (readW s.mem (bp - 12 + sizeAt s.mem bp)) = 0) :
    (mm_realloc s (some bp) size).1 = some bp := by
  simp only [mm_realloc]
  rw [if_neg hs, heq]
  rw [if_neg (by omega : ¬ (sizeAt s.mem bp + 16 < sizeAt s.mem bp)),
      if_neg (by omega : ¬ (sizeAt s.mem bp < sizeAt s.mem bp)),
      if_pos ⟨hnext, Nat.le_add_right _ _⟩]

/-- Witness for the amended C1: in `sC` the block at payload 32 was
produced by `allocate(8)` (size 24), its right neighbour is free, and
`reallocate(32, 8)` returns 32. -/
theorem c1_realloc_same_size_next_free_witness :
    ((8 : Nat) ≠ 0 ∧ align8 (8 + 16) = sizeAt sC.mem 32 ∧
      ustate (readW sC.mem (32 - 12 + sizeAt sC.mem 32)) = 0) ∧
    (mm_realloc sC (some 32) 8).1 = some 32 :=
  ⟨⟨by decide, by decide, by decide⟩,
    c1_realloc_same_size_next_free sC 32 8 (by decide) (by decide) (by decide)⟩

/-- C7: `find_block(size)` returns exactly the first free block of
sufficient size in the specification's search order — bucket
`seg = list_find(size)` (the smallest `i ∈ 1..12` with `size ≤ 2 ^ i`,
or `0` when `size > 2 ^ 12`) walked head to tail, then buckets
`seg + 1 … 12` (when `seg > 0`), then bucket `0` — and returns none
exactly when no block in any searched list is big enough. -/
theorem c7_find_block_first_fit (s : MMState) (size : Nat) :
    find_block s size = find_spec s size ∧
    (find_block s size = none ↔
      ∀ bp ∈ searchOrder s size, sizeAt s.mem bp < size) ∧
    (2 ^ 12 < size → list_find size = 0) ∧
    (size ≤ 2 ^ 12 →
      0 < list_find size ∧ list_find size ≤ 12 ∧ size ≤ 2 ^ list_find size ∧
      ∀ j, 0 < j → size ≤ 2 ^ j → list_find size ≤ j) := by
  have main : find_block s size = find_spec s size := by
    simp only [find_block, find_spec, searchOrder, list_find_eq_bucketSpec]
    by_cases h : 0 < bucketSpec size
    · rw [if_pos h, if_pos h, find_segs_spec]
      simp only [findInList, List.find?_append]
      cases hf : List.find? (fun bp => decide (size ≤ sizeAt s.mem bp))
          (((List.range' (bucketSpec size) (13 - bucketSpec size)).map s.segs).flatten) with
      | some bp => simp [hf]
      | none => simp [hf]
    · rw [if_neg h, if_neg h]
      simp [findInList]
  refine ⟨main, ?_, ?_, ?_⟩
  · rw [main]
    unfold find_spec
    rw [List.find?_eq_none]
    simp only [decide_eq_true_eq, Nat.not_le]
  · intro hbig
    have : list_find_go size 1 (2 ^ 1) 12 = 0 := by
      apply list_find_go_zero
      intro j h1 h2
      calc 2 ^ j ≤ 2 ^ 12 := Nat.pow_le_pow_right (by norm_num) (by omega)
        _ < size := hbig
    simpa [list_find] using this
  · intro hsmall
    have h := list_find_go_le size 12 1 12 (by omega) (by omega) hsmall
    simp only [pow_one] at h
    have hmin : ∀ j, 0 < j → size ≤ 2 ^ j → list_find size ≤ j := by
      intro j hj hsj
      by_cases hj12 : j ≤ 12
      · have h2 := list_find_go_le size 12 1 j (by omega) (by omega) hsj
        simp only [pow_one] at h2
        simpa [list_find] using h2.2.1
      · simp only [list_find]
        omega
    refine ⟨?_, ?_, ?_, hmin⟩ <;> simp only [list_find] <;> omega

/-- C5: when the heap-extension collaborator fails, `allocate` and
`reallocate` (on its relocate path, the only reallocate path that can
ask for an extension) return null and modify no internal state: the
resulting machine equals the original with only the extension-attempt
counter advanced — memory (all headers, footers, payload bytes), the
free lists and the break are untouched, so the §3 invariants still
hold and the original block of a failing reallocate is still allocated
with its payload intact. -/
theorem c5_extend_fail_no_mutation (s : MMState) (n bp size : Nat) :
    (n ≠ 0 → find_block s (align8 (n + 16)) = none →
      s.oracle s.tick = false →
      mm_malloc s n = (none, { s with tick := s.tick + 1 })) ∧
    (size ≠ 0 →
      ¬ (align8 (size + 16) + 16 < sizeAt s.mem bp) →
      ¬ (align8 (size + 16) < sizeAt s.mem bp) →
      ¬ (ustate (readW s.mem (bp - 12 + sizeAt s.mem bp)) = 0 ∧
          align8 (size + 16) ≤
            sizeAt s.mem bp + usize (readW s.mem (bp - 12 + sizeAt s.mem bp))) →
      ¬ (ustate (readW s.mem (bp - 16)) = 0 ∧
          align8 (size + 16) ≤ sizeAt s.mem bp + usize (readW s.mem (bp - 16))) →
      find_block s (align8 (size + 16)) = none →
      s.oracle s.tick = false →
      mm_realloc s (some bp) size = (none, { s with tick := s.tick + 1 })) := by
  refine ⟨malloc_extend_fail s n, ?_⟩
  intro hs h1 h2 h3 h4 hf ho
  simp only [mm_realloc]
  rw [if_neg hs, if_neg h1, if_neg h2, if_neg h3, if_neg h4,
      malloc_extend_fail s size hs hf ho]

/-- Witness for C5: a failing `allocate(5)` on the pristine
no-extension machine `s0f`, and a failing `reallocate(32, 100)` in the
two-block heap `sE` whose oracle has run out of grants; both return
null with the machine unchanged up to the attempt counter. -/
theorem c5_extend_fail_no_mutation_witness :
    ((5 : Nat) ≠ 0 ∧ find_block s0f (align8 (5 + 16)) = none ∧
      s0f.oracle s0f.tick = false ∧
      mm_malloc s0f 5 = (none, { s0f with tick := s0f.tick + 1 })) ∧
    ((100 : Nat) ≠ 0 ∧ find_block sE (align8 (100 + 16)) = none ∧
      sE.oracle sE.tick = false ∧
      mm_realloc sE (some 32) 100 = (none, { sE with tick := sE.tick + 1 })) :=
  ⟨⟨by decide, by decide, by decide,
      (c5_extend_fail_no_mutation s0f 5 0 0).1 (by decide) (by decide) (by decide)⟩,
    ⟨by decide, by decide, by decide,
      (c5_extend_fail_no_mutation sE 0 32 100).2 (by decide) (by decide)
        (by decide) (by decide) (by decide) (by decide) (by decide)⟩⟩

/-- C8: every non-null payload address returned by `allocate` or
`reallocate` over any sequence of public API calls starting from
`init` is a multiple of 8, provided the external heap base is
8-aligned. -/
theorem c8_payloads_aligned (s : MMState) (cs : List Cmd)
    (h : s.brk % 8 = 0) :
    ∀ p ∈ (run s cs).ptrs, p % 8 = 0 := by
  have key : ∀ (l : List Cmd) (t : Trace), TAligned t →
      TAligned (l.foldl step t) := by
    intro l
    induction l with
    | nil => intro t ht; exact ht
    | cons c l2 ih => intro t ht; exact ih _ (taligned_step t c ht)
  exact (key cs { st := (mm_init s).2, ptrs := [] }
    ⟨aligned_init s h, fun p hp => by cases hp⟩).2

/-- Witness for C8: the pristine machine with base 0 run through a
five-command client trace; it returns the payloads 32, 56, 32 and 80,
all multiples of 8. -/
theorem c8_payloads_aligned_witness :
    s0.brk % 8 = 0 ∧
    (run s0 csW).ptrs = [32, 56, 32, 80] ∧
    ∀ p ∈ (run s0 csW).ptrs, p % 8 = 0 :=
  ⟨by decide, by decide, c8_payloads_aligned s0 csW (by decide)⟩

end MMC
